import Mathlib

/-!
Verification of the Eclipse IBC state engine against its natural-language
specification.  The definitions below are shallow embeddings of the Rust
source:

* `IbcStore` (`src/state/src/ibc_store.rs`) — the Jellyfish-Merkle backing
  store: `nodes : BTreeMap<NodeKey, Node>` and
  `value_history : map<KeyHash, BTreeMap<Version, Option<OwnedValue>>>`.
  `BTreeMap`s are embedded as association lists sorted strictly by key;
  `u64` versions are embedded as `Nat` (comparisons on `u64` never wrap).
  Byte strings are `List Nat`; opaque hashes and node keys are `Nat`.
* the port-binding handler (`src/program/src/ibc_handler.rs`),
* the host light client (`src/light-client/src/eclipse_client_state.rs`,
  `eclipse_chain.rs`),
* the instruction parser (`src/program/src/ibc_contract_instruction.rs`)
  and `write_to_tx_buffer` (`src/program/src/ibc_program.rs`).
-/

/-! ## Association-list model of `BTreeMap` -/

/-- `BTreeMap` lookup: `map.get(&k)`. -/
def btLookup {α : Type} (k : Nat) : List (Nat × α) → Option α
  | [] => none
  | (k', v) :: rest => if k = k' then some v else btLookup k rest

/-- `BTreeMap` insert: replaces the entry when the key is present, otherwise
inserts at the sorted position. -/
def btInsert {α : Type} (k : Nat) (v : α) : List (Nat × α) → List (Nat × α)
  | [] => [(k, v)]
  | (k', v') :: rest =>
    if k < k' then (k, v) :: (k', v') :: rest
    else if k = k' then (k, v) :: rest
    else (k', v') :: btInsert k v rest

/-- `map.range(..=maxK).next_back()`: the last entry whose key is `≤ maxK`
(on a key-sorted list, the entry with the greatest such key). -/
def btLastLe {α : Type} (maxK : Nat) : List (Nat × α) → Option (Nat × α)
  | [] => none
  | (k, v) :: rest =>
    if k ≤ maxK then
      match btLastLe maxK rest with
      | some p => some p
      | none => some (k, v)
    else btLastLe maxK rest

/-- The `BTreeMap` representation invariant: keys strictly increase. -/
def BtSorted {α : Type} (l : List (Nat × α)) : Prop :=
  List.Pairwise (fun a b => a.1 < b.1) l

instance {α : Type} (l : List (Nat × α)) : Decidable (BtSorted l) := by
  unfold BtSorted
  infer_instance

theorem btLastLe_mem {α : Type} {maxK : Nat} {l : List (Nat × α)} {p : Nat × α}
    (h : btLastLe maxK l = some p) : p ∈ l ∧ p.1 ≤ maxK := by
  induction l with
  | nil => simp [btLastLe] at h
  | cons hd tl ih =>
    by_cases hle : hd.1 ≤ maxK
    · rcases htl : btLastLe maxK tl with _ | q
      · have : p = hd := by
          simp only [btLastLe, hle, if_true, htl] at h
          exact (Option.some_inj.mp h).symm
        subst this
        exact ⟨List.mem_cons_self _ _, hle⟩
      · have : q = p := by
          simp only [btLastLe, hle, if_true, htl] at h
          exact Option.some_inj.mp h
        subst this
        obtain ⟨hmem, hk⟩ := ih htl
        exact ⟨List.mem_cons_of_mem _ hmem, hk⟩
    · simp only [btLastLe, hle, if_false] at h
      obtain ⟨hmem, hk⟩ := ih h
      exact ⟨List.mem_cons_of_mem _ hmem, hk⟩

theorem btLastLe_eq_none {α : Type} {maxK : Nat} {l : List (Nat × α)} :
    btLastLe maxK l = none ↔ ∀ p ∈ l, ¬ p.1 ≤ maxK := by
  induction l with
  | nil => simp [btLastLe]
  | cons hd tl ih =>
    constructor
    · intro h p hp
      by_cases hle : hd.1 ≤ maxK
      · rcases htl : btLastLe maxK tl with _ | q
        · simp [btLastLe, hle, htl] at h
        · simp [btLastLe, hle, htl] at h
      · simp only [btLastLe, hle, if_false] at h
        rcases List.mem_cons.mp hp with rfl | hp'
        · exact hle
        · exact ih.mp h p hp'
    · intro hall
      have hhd : ¬ hd.1 ≤ maxK := hall hd (List.mem_cons_self _ _)
      simp only [btLastLe, hhd, if_false]
      exact ih.mpr fun p hp => hall p (List.mem_cons_of_mem _ hp)

theorem btLastLe_eq_some_of_greatest {α : Type} {maxK : Nat}
    {l : List (Nat × α)} (hs : BtSorted l) {p : Nat × α}
    (hmem : p ∈ l) (hle : p.1 ≤ maxK)
    (hmax : ∀ q ∈ l, q.1 ≤ maxK → q.1 ≤ p.1) :
    btLastLe maxK l = some p := by
  induction l with
  | nil => cases hmem
  | cons hd tl ih =>
    have hs' : BtSorted tl := (List.pairwise_cons.mp hs).2
    have hlt : ∀ q ∈ tl, hd.1 < q.1 := (List.pairwise_cons.mp hs).1
    rcases List.mem_cons.mp hmem with rfl | hmem'
    · simp only [btLastLe, hle, if_true]
      rcases htl : btLastLe maxK tl with _ | q
      · rfl
      · exfalso
        obtain ⟨hqmem, hqle⟩ := btLastLe_mem htl
        have h1 : q.1 ≤ p.1 := hmax q (List.mem_cons_of_mem _ hqmem) hqle
        have h2 : p.1 < q.1 := hlt q hqmem
        omega
    · have hhd : hd.1 ≤ maxK := le_trans (le_of_lt (hlt p hmem')) hle
      simp only [btLastLe, hhd, if_true]
      rw [ih hs' hmem' (fun q hq hqle => hmax q (List.mem_cons_of_mem _ hq) hqle)]

theorem btLastLe_greatest {α : Type} {maxK : Nat} {l : List (Nat × α)}
    (hs : BtSorted l) {p : Nat × α} (h : btLastLe maxK l = some p) :
    ∀ q ∈ l, q.1 ≤ maxK → q.1 ≤ p.1 := by
  induction l with
  | nil => simp [btLastLe] at h
  | cons hd tl ih =>
    have hs' : BtSorted tl := (List.pairwise_cons.mp hs).2
    have hlt : ∀ q ∈ tl, hd.1 < q.1 := (List.pairwise_cons.mp hs).1
    intro q hq hqle
    by_cases hle : hd.1 ≤ maxK
    · rcases htl : btLastLe maxK tl with _ | r
      · have hp : p = hd := by
          simp only [btLastLe, hle, if_true, htl] at h
          exact (Option.some_inj.mp h).symm
        rcases List.mem_cons.mp hq with rfl | hq'
        · rw [hp]
        · exact absurd hqle (btLastLe_eq_none.mp htl q hq')
      · have hr : r = p := by
          simp only [btLastLe, hle, if_true, htl] at h
          exact Option.some_inj.mp h
        rcases List.mem_cons.mp hq with rfl | hq'
        · obtain ⟨hpm, _⟩ := btLastLe_mem htl
          rw [← hr]
          exact le_of_lt (hlt r hpm)
        · rw [hr] at htl
          exact ih hs' htl q hq' hqle
    · simp only [btLastLe, hle, if_false] at h
      rcases List.mem_cons.mp hq with rfl | hq'
      · exact absurd hqle hle
      · exact ih hs' h q hq' hqle

/-! ## `IbcStore` (src/state/src/ibc_store.rs)

The Rust `IbcStore` wraps an `InnerStore` in a `RwLock`; the lock only
serialises access and is not modelled.  `NodeKey` and `Node` are opaque to
every operation modelled here, so node keys are embedded as `Nat` and nodes
as their encoded bytes (`List Nat`). -/

abbrev Version := Nat
abbrev KeyHash := Nat
abbrev OwnedValue := List Nat

/-- `InnerStore { nodes, value_history }`. -/
structure IbcStore where
  nodes : List (Nat × List Nat)
  value_history : List (KeyHash × List (Version × Option OwnedValue))
  deriving DecidableEq, Repr

/-- `TreeReader::get_value_option` (src/state/src/ibc_store.rs:113-128):
`value_history.get(&key_hash).and_then(|h| h.range(..=max_version)
.next_back().and_then(|(_, value)| value.clone()))`. -/
def IbcStore.get_value_option (store : IbcStore) (max_version : Version)
    (key_hash : KeyHash) : Option OwnedValue :=
  match btLookup key_hash store.value_history with
  | none => none
  | some version_history =>
    match btLastLe max_version version_history with
    | none => none
    | some (_, value) => value

/-! ## Claim C1: snapshot read semantics of `get_value_option` -/

/-- **C1.** Snapshot read semantics of the store: assuming the `BTreeMap`
key-sortedness invariant for the queried key's history,
`get_value_option v k = some w` iff `w` is the value recorded for `k` at the
greatest version `≤ v` and that entry is not a tombstone; the result is
`none` when `k` is absent from the value history or the latest entry at or
before `v` is a tombstone. -/
theorem get_value_option_snapshot (store : IbcStore) (v : Version) (k : KeyHash)
    (hs : BtSorted ((btLookup k store.value_history).getD [])) :
    (∀ w, store.get_value_option v k = some w ↔
      ∃ hist ver, btLookup k store.value_history = some hist ∧
        (ver, some w) ∈ hist ∧ ver ≤ v ∧ ∀ p ∈ hist, p.1 ≤ v → p.1 ≤ ver) ∧
    (btLookup k store.value_history = none →
      store.get_value_option v k = none) ∧
    (∀ hist ver, btLookup k store.value_history = some hist →
      (ver, (none : Option OwnedValue)) ∈ hist → ver ≤ v →
      (∀ p ∈ hist, p.1 ≤ v → p.1 ≤ ver) →
      store.get_value_option v k = none) := by
  refine ⟨?_, ?_, ?_⟩
  · intro w
    constructor
    · intro h
      rcases hl : btLookup k store.value_history with _ | hist
      · simp [IbcStore.get_value_option, hl] at h
      · have hs' : BtSorted hist := by rwa [hl] at hs
        rcases hlast : btLastLe v hist with _ | p
        · simp [IbcStore.get_value_option, hl, hlast] at h
        · have hval : p.2 = some w := by
            simpa [IbcStore.get_value_option, hl, hlast] using h
          obtain ⟨hmem, hle⟩ := btLastLe_mem hlast
          refine ⟨hist, p.1, rfl, ?_, hle, btLastLe_greatest hs' hlast⟩
          have : p = (p.1, some w) := by
            cases p; simp_all
          rwa [this] at hmem
    · rintro ⟨hist, ver, hl, hmem, hle, hmax⟩
      have hs' : BtSorted hist := by rwa [hl] at hs
      have := btLastLe_eq_some_of_greatest hs' (p := (ver, some w)) hmem hle
        (by intro q hq hqle; exact hmax q hq hqle)
      simp [IbcStore.get_value_option, hl, this]
  · intro hl
    simp [IbcStore.get_value_option, hl]
  · intro hist ver hl hmem hle hmax
    have hs' : BtSorted hist := by rwa [hl] at hs
    have := btLastLe_eq_some_of_greatest hs'
      (p := (ver, (none : Option OwnedValue))) hmem hle
      (by intro q hq hqle; exact hmax q hq hqle)
    simp [IbcStore.get_value_option, hl, this]

/-- Concrete instance of C1: a store whose key `1` carries value `[7]` at
version `5` and a tombstone at version `9`. -/
theorem get_value_option_snapshot_witness :
    (IbcStore.get_value_option ⟨[], [(1, [(5, some [7]), (9, none)])]⟩ 6 1
        = some [7]) ∧
    (IbcStore.get_value_option ⟨[], [(1, [(5, some [7]), (9, none)])]⟩ 9 1
        = none) ∧
    (IbcStore.get_value_option ⟨[], [(1, [(5, some [7]), (9, none)])]⟩ 6 2
        = none) := by
  refine ⟨?_, ?_, ?_⟩
  · exact ((get_value_option_snapshot ⟨[], [(1, [(5, some [7]), (9, none)])]⟩
      6 1 (by decide)).1 [7]).mpr
      ⟨[(5, some [7]), (9, none)], 5, by decide, by decide, by decide, by decide⟩
  · exact (get_value_option_snapshot ⟨[], [(1, [(5, some [7]), (9, none)])]⟩
      9 1 (by decide)).2.2 [(5, some [7]), (9, none)] 9
      (by decide) (by decide) (by decide) (by decide)
  · exact (get_value_option_snapshot ⟨[], [(1, [(5, some [7]), (9, none)])]⟩
      6 2 (by decide)).2.1 (by decide)

/-! ## `write_node_batch` (src/state/src/ibc_store.rs:146-167)

The Rust loop first inserts every node of the batch, then walks the value
entries in order; when a value's version is strictly below the key's latest
recorded version it `bail!`s from inside the loop, leaving all mutations
performed so far (all node inserts and the value entries already processed)
in place behind the write guard. -/

/-- `NodeBatch { nodes, values }` (from the `jmt` crate): node inserts plus
`((version, key_hash), value)` entries, each list in its `BTreeMap`
iteration order. -/
structure NodeBatch where
  nodes : List (Nat × List Nat)
  values : List ((Version × KeyHash) × Option OwnedValue)
  deriving DecidableEq, Repr

/-- The value-writing loop of `write_node_batch`.  Returns the (possibly
partially) updated `value_history` and `true` iff the loop completed without
bailing. -/
def writeValues :
    List (KeyHash × List (Version × Option OwnedValue)) →
    List ((Version × KeyHash) × Option OwnedValue) →
    List (KeyHash × List (Version × Option OwnedValue)) × Bool
  | vh, [] => (vh, true)
  | vh, ((version, key_hash), value) :: rest =>
    match ((btLookup key_hash vh).getD []).getLast? with
    | some (last_version, _) =>
      if version < last_version then
        (vh, false)
      else
        writeValues
          (btInsert key_hash
            (btInsert version value ((btLookup key_hash vh).getD [])) vh)
          rest
    | none =>
        writeValues
          (btInsert key_hash
            (btInsert version value ((btLookup key_hash vh).getD [])) vh)
          rest

/-- `TreeWriter::write_node_batch`: inserts every node, then runs the value
loop; the `Bool` is `true` for `Ok(())` and `false` for the `bail!`. -/
def IbcStore.write_node_batch (store : IbcStore) (batch : NodeBatch) :
    IbcStore × Bool :=
  let nodes' := batch.nodes.foldl (fun ns p => btInsert p.1 p.2 ns) store.nodes
  let r := writeValues store.value_history batch.values
  (⟨nodes', r.1⟩, r.2)

/-- What one completed iteration of the value loop does to `value_history`. -/
def applyValueEntry
    (vh : List (KeyHash × List (Version × Option OwnedValue)))
    (e : (Version × KeyHash) × Option OwnedValue) :
    List (KeyHash × List (Version × Option OwnedValue)) :=
  btInsert e.1.2 (btInsert e.1.1 e.2 ((btLookup e.1.2 vh).getD [])) vh

/-! ## Claim C2: batch-write atomicity (refuted, then amended) -/

/-- **C2, counterexample.**  A batch containing one node and one value entry
whose version (3) is below the key's latest version (5) is rejected, yet the
store is *not* left unchanged: the node has been installed. -/
theorem write_node_batch_not_atomic :
    (IbcStore.write_node_batch ⟨[], [(1, [(5, some [7])])]⟩
        ⟨[(9, [1, 2])], [((3, 1), some [8])]⟩).2 = false ∧
    (IbcStore.write_node_batch ⟨[], [(1, [(5, some [7])])]⟩
        ⟨[(9, [1, 2])], [((3, 1), some [8])]⟩).1
      ≠ (⟨[], [(1, [(5, some [7])])]⟩ : IbcStore) ∧
    btLookup 9 (IbcStore.write_node_batch ⟨[], [(1, [(5, some [7])])]⟩
        ⟨[(9, [1, 2])], [((3, 1), some [8])]⟩).1.nodes = some [1, 2] := by
  refine ⟨rfl, ?_, rfl⟩
  decide

theorem writeValues_prefix (values : List ((Version × KeyHash) × Option OwnedValue))
    (vh : List (KeyHash × List (Version × Option OwnedValue))) :
    ∃ pfx sfx, values = pfx ++ sfx ∧
      (writeValues vh values).1 = pfx.foldl applyValueEntry vh ∧
      ((writeValues vh values).2 = true → sfx = []) := by
  induction values generalizing vh with
  | nil => exact ⟨[], [], rfl, rfl, fun _ => rfl⟩
  | cons e rest ih =>
    obtain ⟨⟨version, key_hash⟩, value⟩ := e
    rcases hlast : ((btLookup key_hash vh).getD []).getLast? with _ | ⟨last_version, lval⟩
    · obtain ⟨pfx, sfx, hsplit, hvh, hok⟩ := ih (applyValueEntry vh ((version, key_hash), value))
      refine ⟨((version, key_hash), value) :: pfx, sfx, by rw [hsplit]; rfl, ?_, ?_⟩
      · simpa [writeValues, hlast, applyValueEntry] using hvh
      · intro h
        apply hok
        simpa [writeValues, hlast, applyValueEntry] using h
    · by_cases hlt : version < last_version
      · refine ⟨[], ((version, key_hash), value) :: rest, rfl, ?_, ?_⟩
        · simp [writeValues, hlast, hlt]
        · intro h
          simp [writeValues, hlast, hlt] at h
      · obtain ⟨pfx, sfx, hsplit, hvh, hok⟩ := ih (applyValueEntry vh ((version, key_hash), value))
        refine ⟨((version, key_hash), value) :: pfx, sfx, by rw [hsplit]; rfl, ?_, ?_⟩
        · simpa [writeValues, hlast, hlt, applyValueEntry] using hvh
        · intro h
          apply hok
          simpa [writeValues, hlast, hlt, applyValueEntry] using h

/-- **C2, amended.**  `write_node_batch` is not atomic on rejection: in every
case — accepted or rejected — all nodes of the batch are installed, and the
resulting value history is the batch's value entries applied up to (but not
including) the first entry whose version is below its key's latest version;
when the batch is accepted (`true`), every value entry has been applied. -/
theorem write_node_batch_partial_install (store : IbcStore) (batch : NodeBatch) :
    (store.write_node_batch batch).1.nodes
        = batch.nodes.foldl (fun ns p => btInsert p.1 p.2 ns) store.nodes ∧
    ∃ pfx sfx, batch.values = pfx ++ sfx ∧
      (store.write_node_batch batch).1.value_history
          = pfx.foldl applyValueEntry store.value_history ∧
      ((store.write_node_batch batch).2 = true → sfx = []) := by
  obtain ⟨pfx, sfx, hsplit, hvh, hok⟩ :=
    writeValues_prefix batch.values store.value_history
  exact ⟨rfl, pfx, sfx, hsplit, hvh, hok⟩

/-! ## Claim C3: strictly increasing versions (refuted, then amended) -/

/-- **C3, counterexample.**  A second batch entry for key `1` at the *same*
version `5` as its latest entry is *accepted* (the guard only rejects
strictly smaller versions), and it overwrites the stored value. -/
theorem write_node_batch_same_version_accepted :
    IbcStore.write_node_batch ⟨[], [(1, [(5, some [7])])]⟩
        ⟨[], [((5, 1), some [9])]⟩
      = (⟨[], [(1, [(5, some [9])])]⟩, true) := by
  decide

theorem btLookup_btInsert_self {α : Type} (k : Nat) (x : α) :
    ∀ l : List (Nat × α), btLookup k (btInsert k x l) = some x := by
  intro l
  induction l with
  | nil => simp [btInsert, btLookup]
  | cons hd tl ih =>
    by_cases h1 : k < hd.1
    · simp [btInsert, h1, btLookup]
    · by_cases h2 : k = hd.1
      · simp [btInsert, h1, h2, btLookup]
      · simp [btInsert, h1, h2, btLookup, ih]

theorem getLastMem {α : Type} {l : List α} {a : α}
    (h : l.getLast? = some a) : a ∈ l := by
  induction l with
  | nil => simp at h
  | cons hd tl ih =>
    cases tl with
    | nil =>
      simp only [List.getLast?_singleton, Option.some_inj] at h
      simp [h]
    | cons t0 trest =>
      rw [List.getLast?_cons_cons] at h
      exact List.mem_cons_of_mem _ (ih h)

theorem btInsert_getLast {α : Type} {l : List (Nat × α)} {lv : Nat} {lval : α}
    (hs : BtSorted l) (hlast : l.getLast? = some (lv, lval)) (x : α) :
    btInsert lv x l = l.dropLast ++ [(lv, x)] := by
  induction l with
  | nil => simp at hlast
  | cons hd tl ih =>
    cases tl with
    | nil =>
      have hhd : hd = (lv, lval) := by
        simpa [List.getLast?] using hlast
      subst hhd
      simp [btInsert]
    | cons t0 trest =>
      have hlast' : (t0 :: trest).getLast? = some (lv, lval) := by
        rw [List.getLast?_cons_cons] at hlast
        exact hlast
      have hs' : BtSorted (t0 :: trest) := (List.pairwise_cons.mp hs).2
      have hmem : (lv, lval) ∈ t0 :: trest := getLastMem hlast'
      have hlt : hd.1 < lv := (List.pairwise_cons.mp hs).1 (lv, lval) hmem
      have h1 : ¬ lv < hd.1 := by omega
      have h2 : ¬ lv = hd.1 := by omega
      rw [btInsert, if_neg h1, if_neg h2, ih hs' hlast',
        List.dropLast_cons₂, List.cons_append]

/-- **C3, amended.**  Per-key versions are monotone but not strictly so: a
batch entry whose version is strictly below the key's latest recorded
version is rejected (leaving a value-only single-entry batch with no
effect), an entry at a version at or above the latest is accepted, and an
entry at exactly the latest version overwrites the latest entry in place, so
the key's stored version list is unchanged rather than extended. -/
theorem write_node_batch_version_monotone (store : IbcStore)
    (v : Version) (k : KeyHash) (val : Option OwnedValue)
    (hist : List (Version × Option OwnedValue)) (lv : Version)
    (lval : Option OwnedValue)
    (hl : btLookup k store.value_history = some hist)
    (hlast : hist.getLast? = some (lv, lval))
    (hs : BtSorted hist) :
    (v < lv → store.write_node_batch ⟨[], [((v, k), val)]⟩ = (store, false)) ∧
    (lv ≤ v → (store.write_node_batch ⟨[], [((v, k), val)]⟩).2 = true) ∧
    (btLookup k
        (store.write_node_batch ⟨[], [((lv, k), val)]⟩).1.value_history
      = some (hist.dropLast ++ [(lv, val)])) := by
  refine ⟨?_, ?_, ?_⟩
  · intro hlt
    simp only [IbcStore.write_node_batch, writeValues, hl, Option.getD_some,
      hlast, if_pos hlt, List.foldl_nil]
  · intro hge
    have hlt : ¬ v < lv := not_lt.mpr hge
    simp only [IbcStore.write_node_batch, writeValues, hl, Option.getD_some,
      hlast, if_neg hlt]
  · have hlt : ¬ lv < lv := lt_irrefl lv
    simp only [IbcStore.write_node_batch, writeValues, hl, Option.getD_some,
      hlast, if_neg hlt]
    rw [btLookup_btInsert_self, btInsert_getLast hs hlast]

/-- Concrete instance of the amended C3: with key `1` latest at version `5`,
a version-`3` entry is rejected without effect, a version-`6` entry is
accepted, and a second version-`5` entry overwrites in place. -/
theorem write_node_batch_version_monotone_witness :
    (IbcStore.write_node_batch ⟨[], [(1, [(5, some [7])])]⟩
        ⟨[], [((3, 1), some [8])]⟩
      = (⟨[], [(1, [(5, some [7])])]⟩, false)) ∧
    ((IbcStore.write_node_batch ⟨[], [(1, [(5, some [7])])]⟩
        ⟨[], [((6, 1), some [8])]⟩).2 = true) ∧
    (btLookup 1 (IbcStore.write_node_batch ⟨[], [(1, [(5, some [7])])]⟩
        ⟨[], [((5, 1), some [9])]⟩).1.value_history = some [(5, some [9])]) := by
  refine ⟨?_, ?_, ?_⟩
  · exact (write_node_batch_version_monotone ⟨[], [(1, [(5, some [7])])]⟩
      3 1 (some [8]) [(5, some [7])] 5 (some [7])
      (by decide) (by decide) (by decide)).1 (by decide)
  · exact (write_node_batch_version_monotone ⟨[], [(1, [(5, some [7])])]⟩
      6 1 (some [8]) [(5, some [7])] 5 (some [7])
      (by decide) (by decide) (by decide)).2.1 (by decide)
  · exact (write_node_batch_version_monotone ⟨[], [(1, [(5, some [7])])]⟩
      5 1 (some [9]) [(5, some [7])] 5 (some [7])
      (by decide) (by decide) (by decide)).2.2

/-! ## Port binding (src/program/src/ibc_handler.rs:696-746)

`bind_port`/`release_port` operate on two `IbcState` entries: the
`Port(port_id)` map (one entry per port path) and the `AllModules` set
(`AllModuleIds { modules : BTreeSet<ModuleId> }` under `AllModulesPath`).
The overlay's typed `get`/`set`/`update`/`remove` on these paths compose to
plain map/set semantics, embedded here as `PortMapState`.  The caller's
`Pubkey` enters only through `module_id_of_pubkey` (hex encoding, injective),
so operations are stated directly on the resulting `ModuleId`. -/

abbrev PortId := String
abbrev ModuleId := String

/-- `ics05_port::error::PortError` (only the variants this code produces). -/
inductive PortError
  | implementationSpecific
  | unknownPort (port_id : PortId)
  deriving DecidableEq

/-- The port subsystem state: the `Port` map and the `AllModules` set. -/
structure PortMapState where
  ports : List (PortId × ModuleId)
  modules : List ModuleId
  deriving DecidableEq

/-- `lookup_module_by_port`: `state.get(&PortPath(port_id))`. -/
def portLookup (p : PortId) : List (PortId × ModuleId) → Option ModuleId
  | [] => none
  | (p', m) :: rest => if p = p' then some m else portLookup p rest

/-- `state.set(&port_path, module_id)`: map insert/replace. -/
def portSet (p : PortId) (m : ModuleId) :
    List (PortId × ModuleId) → List (PortId × ModuleId)
  | [] => [(p, m)]
  | (p', m') :: rest =>
    if p = p' then (p, m) :: rest else (p', m') :: portSet p m rest

/-- `state.remove(&port_path)`: map delete. -/
def portRemove (p : PortId) :
    List (PortId × ModuleId) → List (PortId × ModuleId)
  | [] => []
  | (p', m') :: rest => if p = p' then rest else (p', m') :: portRemove p rest

/-- `all_module_ids.modules.insert(module_id)` (set insert). -/
def setInsert (m : ModuleId) (l : List ModuleId) : List ModuleId :=
  if m ∈ l then l else m :: l

/-- `all_module_ids.modules.remove(&module_id)` (set remove). -/
def setRemove (m : ModuleId) (l : List ModuleId) : List ModuleId :=
  l.filter (fun x => x ≠ m)

/-- `IbcHandler::bind_port` (src/program/src/ibc_handler.rs:703-718). -/
def bind_port (s : PortMapState) (port_id : PortId) (module_id : ModuleId) :
    Except PortError PortMapState :=
  if (portLookup port_id s.ports).isNone then
    .ok ⟨portSet port_id module_id s.ports, setInsert module_id s.modules⟩
  else
    .error .implementationSpecific

/-- `IbcHandler::release_port` (src/program/src/ibc_handler.rs:720-746). -/
def release_port (s : PortMapState) (port_id : PortId) (module_id : ModuleId) :
    Except PortError PortMapState :=
  match portLookup port_id s.ports with
  | some curr_module_id =>
    if module_id = curr_module_id then
      .ok ⟨portRemove port_id s.ports, setRemove module_id s.modules⟩
    else
      .error .implementationSpecific
  | none => .error (.unknownPort port_id)

/-- One successful step of the port state machine. -/
inductive PortOp
  | bind (port_id : PortId) (module_id : ModuleId)
  | release (port_id : PortId) (module_id : ModuleId)
  deriving DecidableEq

def applyPortOp (s : PortMapState) : PortOp → Except PortError PortMapState
  | .bind p m => bind_port s p m
  | .release p m => release_port s p m

/-- Runs a sequence of port operations, requiring every one to succeed. -/
def applyPortOps (s : PortMapState) : List PortOp → Option PortMapState
  | [] => some s
  | op :: rest =>
    match applyPortOp s op with
    | .ok s' => applyPortOps s' rest
    | .error _ => none

/-! ## Claim C4: AllModules/Port coherence (refuted, then amended) -/

/-- **C4, counterexample.**  Bind module `"m"` to two ports, then release one
of them: the release removes `"m"` from `AllModules` although `"m"` is still
bound to port `"p2"`, so `m ∈ AllModules ⇔ ∃ p, Port(p) = m` fails. -/
theorem allModules_coherence_cex :
    applyPortOps ⟨[], []⟩
        [.bind "p1" "m", .bind "p2" "m", .release "p1" "m"]
      = some ⟨[("p2", "m")], []⟩ ∧
    portLookup "p2" [("p2", "m")] = some "m" ∧
    "m" ∉ ([] : List ModuleId) := by
  refine ⟨by decide, by decide, by decide⟩

theorem portLookup_portSet_self (p : PortId) (m : ModuleId)
    (l : List (PortId × ModuleId)) : portLookup p (portSet p m l) = some m := by
  induction l with
  | nil => simp [portSet, portLookup]
  | cons hd tl ih =>
    by_cases h : p = hd.1
    · simp [portSet, h, portLookup]
    · simp [portSet, h, portLookup, ih]

theorem portLookup_portSet_ne {p p' : PortId} (hne : p' ≠ p) (m : ModuleId)
    (l : List (PortId × ModuleId)) :
    portLookup p' (portSet p m l) = portLookup p' l := by
  induction l with
  | nil => simp [portSet, portLookup, hne]
  | cons hd tl ih =>
    by_cases h : p = hd.1
    · have h' : p' ≠ hd.1 := fun hh => hne (hh.trans h.symm)
      simp [portSet, h, portLookup, hne, h']
    · by_cases h' : p' = hd.1
      · simp [portSet, h, portLookup, h']
      · simp [portSet, h, portLookup, h', ih]

theorem portLookup_portRemove_ne {p p' : PortId} (hne : p' ≠ p)
    (l : List (PortId × ModuleId)) :
    portLookup p' (portRemove p l) = portLookup p' l := by
  induction l with
  | nil => simp [portRemove]
  | cons hd tl ih =>
    by_cases h : p = hd.1
    · have h' : p' ≠ hd.1 := h ▸ hne
      simp [portRemove, h, portLookup, h', ih]
    · by_cases h' : p' = hd.1
      · simp [portRemove, h, portLookup, h']
      · simp [portRemove, h, portLookup, h', ih]

/-- The amended invariant: membership in `AllModules` implies a bound port. -/
def ModulesCovered (s : PortMapState) : Prop :=
  ∀ m ∈ s.modules, ∃ p, portLookup p s.ports = some m

theorem applyPortOp_preserves_covered {s s' : PortMapState} {op : PortOp}
    (hinv : ModulesCovered s) (h : applyPortOp s op = .ok s') :
    ModulesCovered s' := by
  cases op with
  | bind p m =>
    simp only [applyPortOp, bind_port] at h
    by_cases hfree : (portLookup p s.ports).isNone
    · rw [if_pos hfree] at h
      cases h
      intro m' hm'
      simp only [setInsert] at hm'
      by_cases hmem : m ∈ s.modules
      · rw [if_pos hmem] at hm'
        obtain ⟨p', hp'⟩ := hinv m' hm'
        by_cases hpe : p' = p
        · rw [hpe] at hp'
          rw [Option.isNone_iff_eq_none] at hfree
          rw [hfree] at hp'
          cases hp'
        · exact ⟨p', by rw [portLookup_portSet_ne hpe]; exact hp'⟩
      · rw [if_neg hmem] at hm'
        rcases List.mem_cons.mp hm' with rfl | hm''
        · exact ⟨p, portLookup_portSet_self p m' s.ports⟩
        · obtain ⟨p', hp'⟩ := hinv m' hm''
          by_cases hpe : p' = p
          · rw [hpe] at hp'
            rw [Option.isNone_iff_eq_none] at hfree
            rw [hfree] at hp'
            cases hp'
          · exact ⟨p', by rw [portLookup_portSet_ne hpe]; exact hp'⟩
    · rw [if_neg hfree] at h
      cases h
  | release p m =>
    rcases hcur : portLookup p s.ports with _ | curr
    · simp only [applyPortOp, release_port, hcur] at h
      exact Except.noConfusion h
    · simp only [applyPortOp, release_port, hcur] at h
      by_cases hme : m = curr
      · rw [if_pos hme] at h
        cases h
        intro m' hm'
        simp only [setRemove, List.mem_filter] at hm'
        obtain ⟨hm'mem, hm'ne⟩ := hm'
        have hne : m' ≠ m := by simpa using hm'ne
        obtain ⟨p', hp'⟩ := hinv m' hm'mem
        by_cases hpe : p' = p
        · exfalso
          rw [hpe, hcur] at hp'
          cases hp'
          exact hne hme.symm
        · exact ⟨p', by rw [portLookup_portRemove_ne hpe]; exact hp'⟩
      · rw [if_neg hme] at h
        cases h

theorem applyPortOps_preserves_covered (ops : List PortOp) :
    ∀ s s', ModulesCovered s → applyPortOps s ops = some s' →
      ModulesCovered s' := by
  induction ops with
  | nil =>
    intro s s' hinv h
    simp only [applyPortOps, Option.some_inj] at h
    rw [← h]
    exact hinv
  | cons op rest ih =>
    intro s s' hinv h
    simp only [applyPortOps] at h
    rcases hop : applyPortOp s op with e | s₁
    · rw [hop] at h
      cases h
    · rw [hop] at h
      exact ih s₁ s' (applyPortOp_preserves_covered hinv hop) h

/-- **C4, amended.**  After any sequence of successful `bind_port` and
`release_port` operations starting from the empty state, every module id in
`AllModules` has some port bound to it; the converse fails (see the
counterexample — releasing one of two ports bound to the same module removes
the module from `AllModules` while the other port stays bound). -/
theorem allModules_subset_port_domain (ops : List PortOp) (s : PortMapState)
    (h : applyPortOps ⟨[], []⟩ ops = some s) (m : ModuleId)
    (hm : m ∈ s.modules) : ∃ p, portLookup p s.ports = some m :=
  applyPortOps_preserves_covered ops ⟨[], []⟩ s (by intro m' hm'; cases hm') h
    m hm

/-- Concrete instance of the amended C4 after `bind_port("transfer", m)`. -/
theorem allModules_subset_port_domain_witness :
    ∃ p, portLookup p [("transfer", "m")] = some "m" :=
  allModules_subset_port_domain [.bind "transfer" "m"]
    ⟨[("transfer", "m")], ["m"]⟩ (by decide) "m" (by decide)

/-! ## Claim C6: port bind/release error policy -/

/-- **C6.**  `bind_port(p, c)` succeeds iff `p` is unbound, and then maps `p`
to the caller's module id and adds that id to `AllModules`;
`release_port(p, c)` succeeds iff `p` is bound to exactly the caller's module
id, and then deletes the entry and removes the id from `AllModules`; release
of an unbound port fails with `UnknownPort` and release by a non-owner fails
with `ImplementationSpecific`. -/
theorem bind_release_port_policy (s : PortMapState) (p : PortId)
    (m : ModuleId) :
    (portLookup p s.ports = none →
      bind_port s p m = .ok ⟨portSet p m s.ports, setInsert m s.modules⟩) ∧
    (∀ m', portLookup p s.ports = some m' →
      bind_port s p m = .error .implementationSpecific) ∧
    (portLookup p s.ports = some m →
      release_port s p m
        = .ok ⟨portRemove p s.ports, setRemove m s.modules⟩) ∧
    (portLookup p s.ports = none →
      release_port s p m = .error (.unknownPort p)) ∧
    (∀ m', portLookup p s.ports = some m' → m ≠ m' →
      release_port s p m = .error .implementationSpecific) := by
  refine ⟨?_, ?_, ?_, ?_, ?_⟩
  · intro hfree
    simp [bind_port, hfree]
  · intro m' hbound
    simp [bind_port, hbound]
  · intro hown
    simp [release_port, hown]
  · intro hfree
    simp [release_port, hfree]
  · intro m' hbound hne
    simp [release_port, hbound, hne]

/-- Concrete instance of C6: scenario 4 of the spec (§8). -/
theorem bind_release_port_policy_witness :
    (bind_port ⟨[], []⟩ "transfer" "m"
      = .ok ⟨[("transfer", "m")], ["m"]⟩) ∧
    (bind_port ⟨[("transfer", "m")], ["m"]⟩ "transfer" "m2"
      = .error .implementationSpecific) ∧
    (release_port ⟨[("transfer", "m")], ["m"]⟩ "transfer" "m2"
      = .error .implementationSpecific) ∧
    (release_port ⟨[("transfer", "m")], ["m"]⟩ "transfer" "m"
      = .ok ⟨[], []⟩) ∧
    (release_port ⟨[], []⟩ "transfer" "m"
      = .error (.unknownPort "transfer")) := by
  refine ⟨?_, ?_, ?_, ?_, ?_⟩
  · exact (bind_release_port_policy ⟨[], []⟩ "transfer" "m").1 (by decide)
  · exact (bind_release_port_policy ⟨[("transfer", "m")], ["m"]⟩ "transfer"
      "m2").2.1 "m" (by decide)
  · exact (bind_release_port_policy ⟨[("transfer", "m")], ["m"]⟩ "transfer"
      "m2").2.2.2.2 "m" (by decide) (by decide)
  · exact (bind_release_port_policy ⟨[("transfer", "m")], ["m"]⟩ "transfer"
      "m").2.2.1 (by decide)
  · exact (bind_release_port_policy ⟨[], []⟩ "transfer" "m").2.2.2.1
      (by decide)

/-! ## Host light client types (src/light-client)

`Height` is ibc-rs's `(revision_number, revision_height)` pair with the
derived lexicographic order; `u64` fields are embedded as `Nat`.
`ClientError` keeps only the variants the embedded code produces. -/

structure Height where
  revision_number : Nat
  revision_height : Nat
  deriving DecidableEq

/-- The derived lexicographic `≤` on `Height`. -/
def Height.leb (a b : Height) : Bool :=
  decide (a.revision_number < b.revision_number) ||
    (decide (a.revision_number = b.revision_number) &&
      decide (a.revision_height ≤ b.revision_height))

/-- The derived lexicographic `<` on `Height`. -/
def Height.ltb (a b : Height) : Bool :=
  decide (a.revision_number < b.revision_number) ||
    (decide (a.revision_number = b.revision_number) &&
      decide (a.revision_height < b.revision_height))

theorem Height.ltb_eq_not_leb (a b : Height) :
    Height.ltb a b = !Height.leb b a := by
  rcases a with ⟨an, ah⟩
  rcases b with ⟨bn, bh⟩
  rw [Bool.eq_iff_iff]
  simp only [Height.ltb, Height.leb, Bool.or_eq_true, Bool.and_eq_true,
    decide_eq_true_eq, Bool.not_eq_true', Bool.or_eq_false_iff,
    Bool.and_eq_false_iff, decide_eq_false_iff_not]
  constructor
  · rintro (h | ⟨rfl, h⟩) <;> constructor <;> omega
  · rintro ⟨h1, h2⟩
    rcases h2 with h2 | h2 <;> omega

inductive ClientError
  | invalidHeight
  | misbehaviourHandlingFailure (reason : String)
  | lowHeaderHeight (header_height latest_height : Height)
  | clientSpecific (description : String)
  | clientFrozen (description : String)
  | ics23Verification
  deriving DecidableEq

/-- `EclipseHeader { height, commitment_root, timestamp }`
(src/light-client/src/eclipse_header.rs). -/
structure EclipseHeader where
  height : Height
  commitment_root : List Nat
  timestamp : Int
  deriving DecidableEq

/-- `EclipseClientState { chain_id, latest_header, frozen_height }`
(src/light-client/src/eclipse_client_state.rs:50-54). -/
structure EclipseClientState where
  chain_id : String
  latest_header : EclipseHeader
  frozen_height : Option Height
  deriving DecidableEq

/-- `ClientState::latest_height` (eclipse_client_state.rs:145-147). -/
def EclipseClientState.latest_height (cs : EclipseClientState) : Height :=
  cs.latest_header.height

/-- `ClientState::confirm_not_frozen` (eclipse_client_state.rs:160-167). -/
def EclipseClientState.confirm_not_frozen (cs : EclipseClientState) :
    Except ClientError Unit :=
  match cs.frozen_height with
  | none => .ok ()
  | some _ => .error (.clientFrozen "Frozen at height")

inductive UpdateKind
  | updateClient
  | submitMisbehaviour
  deriving DecidableEq

/-- `ClientState::verify_client_message` (eclipse_client_state.rs:180-216).
The protobuf `Any` decode of the header is taken as given (the claim speaks
of well-formed headers), and the `ctx.client_state(client_id)` lookup plus
`downcast_ref::<EclipseClientState>` is the `ctx_client_state` argument
(`none` embeds a failed lookup or downcast). -/
def EclipseClientState.verify_client_message (cs : EclipseClientState)
    (ctx_client_state : Option EclipseClientState) (update_kind : UpdateKind)
    (header : EclipseHeader) : Except ClientError Unit :=
  match update_kind with
  | .submitMisbehaviour =>
    .error (.misbehaviourHandlingFailure
      "Misbehaviour checks are not yet supported")
  | .updateClient =>
    if Height.leb header.height cs.latest_height then
      .error (.lowHeaderHeight header.height cs.latest_height)
    else
      match ctx_client_state with
      | none =>
        .error (.clientSpecific
          "Client state cannot be downcasted into Eclipse client state")
      | some _ => .ok ()

/-! ## Claim C5: host-client update validation -/

/-- **C5.**  For a host-chain client state with latest height `L`:
`verify_client_message` rejects any header with height `≤ L` with
`LowHeaderHeight`; `confirm_not_frozen` (the frozen check the update handler
runs) rejects whenever `frozen_height` is `Some`; and a well-formed header
with height `> L` on a non-frozen client passes both checks. -/
theorem verify_client_message_update (cs : EclipseClientState)
    (ctx_client_state : Option EclipseClientState) (header : EclipseHeader) :
    (Height.leb header.height cs.latest_height = true →
      cs.verify_client_message ctx_client_state .updateClient header
        = .error (.lowHeaderHeight header.height cs.latest_height)) ∧
    (∀ fh, cs.frozen_height = some fh →
      cs.confirm_not_frozen = .error (.clientFrozen "Frozen at height")) ∧
    (cs.frozen_height = none →
      Height.ltb cs.latest_height header.height = true →
      ∀ c, ctx_client_state = some c →
        cs.confirm_not_frozen = .ok () ∧
        cs.verify_client_message ctx_client_state .updateClient header
          = .ok ()) := by
  refine ⟨?_, ?_, ?_⟩
  · intro hle
    simp [EclipseClientState.verify_client_message, hle]
  · intro fh hf
    simp [EclipseClientState.confirm_not_frozen, hf]
  · intro hfrozen hgt c hctx
    have hle : Height.leb header.height cs.latest_height = false := by
      have := Height.ltb_eq_not_leb cs.latest_height header.height
      rw [this] at hgt
      simpa using hgt
    exact ⟨by simp [EclipseClientState.confirm_not_frozen, hfrozen],
      by simp [EclipseClientState.verify_client_message, hle, hctx]⟩

/-- Concrete instance of C5: spec §8 scenario 2 — a client at height
`(0, 21)` rejects a second update at `(0, 21)` with `LowHeaderHeight`,
a frozen client fails `confirm_not_frozen`, and an update to `(0, 31)` on
the non-frozen client is accepted. -/
theorem verify_client_message_update_witness :
    (EclipseClientState.verify_client_message
        ⟨"eclipse-apricot-0", ⟨⟨0, 21⟩, [], 0⟩, none⟩
        (some ⟨"eclipse-apricot-0", ⟨⟨0, 21⟩, [], 0⟩, none⟩)
        .updateClient ⟨⟨0, 21⟩, [], 1⟩
      = .error (.lowHeaderHeight ⟨0, 21⟩ ⟨0, 21⟩)) ∧
    (EclipseClientState.confirm_not_frozen
        ⟨"eclipse-apricot-0", ⟨⟨0, 21⟩, [], 0⟩, some ⟨0, 21⟩⟩
      = .error (.clientFrozen "Frozen at height")) ∧
    (EclipseClientState.verify_client_message
        ⟨"eclipse-apricot-0", ⟨⟨0, 21⟩, [], 0⟩, none⟩
        (some ⟨"eclipse-apricot-0", ⟨⟨0, 21⟩, [], 0⟩, none⟩)
        .updateClient ⟨⟨0, 31⟩, [], 1⟩
      = .ok ()) := by
  refine ⟨?_, ?_, ?_⟩
  · exact (verify_client_message_update
      ⟨"eclipse-apricot-0", ⟨⟨0, 21⟩, [], 0⟩, none⟩
      (some ⟨"eclipse-apricot-0", ⟨⟨0, 21⟩, [], 0⟩, none⟩)
      ⟨⟨0, 21⟩, [], 1⟩).1 (by decide)
  · exact (verify_client_message_update
      ⟨"eclipse-apricot-0", ⟨⟨0, 21⟩, [], 0⟩, some ⟨0, 21⟩⟩
      none ⟨⟨0, 21⟩, [], 1⟩).2.1 ⟨0, 21⟩ rfl
  · exact ((verify_client_message_update
      ⟨"eclipse-apricot-0", ⟨⟨0, 21⟩, [], 0⟩, none⟩
      (some ⟨"eclipse-apricot-0", ⟨⟨0, 21⟩, [], 0⟩, none⟩)
      ⟨⟨0, 31⟩, [], 1⟩).2.2 rfl (by decide)
      ⟨"eclipse-apricot-0", ⟨⟨0, 21⟩, [], 0⟩, none⟩ rfl).2

/-! ## Height ↔ slot (src/light-client/src/eclipse_chain.rs:27-45) -/

/-- `u64` bound: `slot.checked_add(1)` is `None` iff `slot = u64::MAX`. -/
def u64Size : Nat := 18446744073709551616

/-- `Height::new(revision_number, revision_height)` from ibc-rs: rejects a
zero `revision_height`. -/
def height_new (revision_number revision_height : Nat) :
    Except ClientError Height :=
  if revision_height = 0 then .error .invalidHeight
  else .ok ⟨revision_number, revision_height⟩

/-- `height_of_slot` (eclipse_chain.rs:27-33); `REVISION_NUMBER = 0`. -/
def height_of_slot (slot : Nat) : Except ClientError Height :=
  match (if slot + 1 < u64Size then some (slot + 1) else none) with
  | none => .error .invalidHeight
  | some revision_height => height_new 0 revision_height

/-- `slot_of_height` (eclipse_chain.rs:35-45): requires
`revision_number == 0`, then `revision_height.checked_sub(1)`. -/
def slot_of_height (height : Height) : Except ClientError Nat :=
  if height.revision_number ≠ 0 then .error .invalidHeight
  else
    match height.revision_height with
    | 0 => .error .invalidHeight
    | n + 1 => .ok n

/-! ## Claim C7: height/slot correspondence and round trip -/

/-- **C7.**  For every slot `s` whose increment does not overflow `u64`,
`height_of_slot s = Height(0, s+1)` and `slot_of_height (height_of_slot s)
= s`; `slot_of_height` rejects every height with a nonzero revision number;
and `height_of_slot u64::MAX` errors. -/
theorem height_slot_round_trip :
    (∀ s, s + 1 < u64Size →
      height_of_slot s = .ok ⟨0, s + 1⟩ ∧
      slot_of_height ⟨0, s + 1⟩ = .ok s) ∧
    (∀ h : Height, h.revision_number ≠ 0 →
      slot_of_height h = .error .invalidHeight) ∧
    height_of_slot (u64Size - 1) = .error .invalidHeight := by
  refine ⟨?_, ?_, ?_⟩
  · intro s hs
    constructor
    · simp [height_of_slot, if_pos hs, height_new]
    · simp [slot_of_height]
  · intro h hn
    simp [slot_of_height, hn]
  · have : ¬ (u64Size - 1) + 1 < u64Size := by
      simp [u64Size]
    simp [height_of_slot, this]

/-- Concrete instance of C7 at slot 5 and at revision number 1. -/
theorem height_slot_round_trip_witness :
    (height_of_slot 5 = .ok ⟨0, 6⟩ ∧ slot_of_height ⟨0, 6⟩ = .ok 5) ∧
    slot_of_height ⟨1, 1⟩ = .error .invalidHeight :=
  ⟨height_slot_round_trip.1 5 (by norm_num [u64Size]),
   height_slot_round_trip.2.1 ⟨1, 1⟩ (by decide)⟩

/-! ## Membership proof verification (eclipse_client_state.rs:367-412)

`verify_membership`/`verify_non_membership` receive a commitment prefix but
never use it; the Merkle key path they build is the single-element list
containing only the path string.  The external ibc-rs machinery enters as
parameters: `raw_merkle_proof_try_from` embeds
`RawMerkleProof::try_from(proof)` (`none` = decode failure, which the source
maps to `Ics23Verification`), and the verifier arguments embed
`MerkleProof::verify_membership(proof_specs, root, path, value, 0)` /
`verify_non_membership(proof_specs, root, path)` with the constant
`eclipse_chain::proof_specs()` already applied. -/

structure MerklePath where
  key_path : List String
  deriving DecidableEq

abbrev CommitmentPrefix := List Nat
abbrev CommitmentRoot := List Nat
abbrev CommitmentProofBytes := List Nat

/-- `ClientState::verify_membership` (eclipse_client_state.rs:367-389). -/
def eclipse_verify_membership {MerkleProof : Type}
    (raw_merkle_proof_try_from : CommitmentProofBytes → Option MerkleProof)
    (merkle_verify_membership :
      MerkleProof → CommitmentRoot → MerklePath → List Nat → Nat →
        Except ClientError Unit)
    (_pfx : CommitmentPrefix) (proof : CommitmentProofBytes)
    (root : CommitmentRoot) (path : String) (value : List Nat) :
    Except ClientError Unit :=
  match raw_merkle_proof_try_from proof with
  | none => .error .ics23Verification
  | some merkle_proof =>
    merkle_verify_membership merkle_proof root ⟨[path]⟩ value 0

/-- `ClientState::verify_non_membership`
(eclipse_client_state.rs:391-412). -/
def eclipse_verify_non_membership {MerkleProof : Type}
    (raw_merkle_proof_try_from : CommitmentProofBytes → Option MerkleProof)
    (merkle_verify_non_membership :
      MerkleProof → CommitmentRoot → MerklePath → Nat →
        Except ClientError Unit)
    (_pfx : CommitmentPrefix) (proof : CommitmentProofBytes)
    (root : CommitmentRoot) (path : String) : Except ClientError Unit :=
  match raw_merkle_proof_try_from proof with
  | none => .error .ics23Verification
  | some merkle_proof =>
    merkle_verify_non_membership merkle_proof root ⟨[path]⟩ 0

/-! ## Claim C8: prefix-independence of host-client proof verification -/

/-- **C8.**  For every underlying Merkle-proof decoder and verifier and all
arguments, `verify_membership` and `verify_non_membership` return identical
results for any two commitment prefixes, and the Merkle key path handed to
the verifier is exactly the single-element list holding the path string —
no commitment prefix is prepended. -/
theorem verify_membership_ignores_prefix_arg {MerkleProof : Type}
    (raw_merkle_proof_try_from : CommitmentProofBytes → Option MerkleProof)
    (merkle_verify_membership :
      MerkleProof → CommitmentRoot → MerklePath → List Nat → Nat →
        Except ClientError Unit)
    (merkle_verify_non_membership :
      MerkleProof → CommitmentRoot → MerklePath → Nat →
        Except ClientError Unit)
    (prefix1 prefix2 : CommitmentPrefix) (proof : CommitmentProofBytes)
    (root : CommitmentRoot) (path : String) (value : List Nat) :
    (eclipse_verify_membership raw_merkle_proof_try_from
        merkle_verify_membership prefix1 proof root path value
      = eclipse_verify_membership raw_merkle_proof_try_from
        merkle_verify_membership prefix2 proof root path value) ∧
    (eclipse_verify_non_membership raw_merkle_proof_try_from
        merkle_verify_non_membership prefix1 proof root path
      = eclipse_verify_non_membership raw_merkle_proof_try_from
        merkle_verify_non_membership prefix2 proof root path) ∧
    (∀ mp, raw_merkle_proof_try_from proof = some mp →
      eclipse_verify_membership raw_merkle_proof_try_from
          merkle_verify_membership prefix1 proof root path value
        = merkle_verify_membership mp root ⟨[path]⟩ value 0) := by
  refine ⟨rfl, rfl, ?_⟩
  intro mp hmp
  simp [eclipse_verify_membership, hmp]

/-! ## Instruction parsing (src/program/src/ibc_contract_instruction.rs)

`parse_instruction` decodes `IbcContractInstruction
{ extra_accounts_for_instruction, last_instruction_part }` and then runs

    for account_index in 0..extra_accounts_for_instruction {
        ibc_instruction_data.extend_from_slice(account data);
    }
    ibc_instruction_data.append(&mut last_instruction_part);

`accounts` lists the data of the instruction's accounts in index order; a
missing index embeds a failing `try_borrow_instruction_account`.  The
protobuf decode of the reassembled payload happens afterwards and is not
part of this claim. -/

inductive InstructionError
  | invalidInstructionData
  | missingAccount
  | custom (code : Nat)
  deriving DecidableEq

/-- The payload-reassembly loop of `parse_instruction`
(ibc_contract_instruction.rs:37-44). -/
def parse_instruction_payload (accounts : List (List Nat))
    (extra_accounts_for_instruction : Nat)
    (last_instruction_part : List Nat) :
    Except InstructionError (List Nat) := do
  let ibc_instruction_data ←
    (List.range extra_accounts_for_instruction).foldlM
      (fun acc account_index =>
        match accounts[account_index]? with
        | none => Except.error InstructionError.missingAccount
        | some data => Except.ok (acc ++ data))
      []
  return ibc_instruction_data ++ last_instruction_part

theorem parse_instruction_gather (accounts : List (List Nat)) :
    ∀ n, n ≤ accounts.length → ∀ acc : List Nat,
      (List.range n).foldlM
        (fun acc account_index =>
          match accounts[account_index]? with
          | none => Except.error InstructionError.missingAccount
          | some data => Except.ok (acc ++ data))
        acc
      = Except.ok (acc ++ (accounts.take n).flatten) := by
  intro n
  induction n with
  | zero => intro _ acc; simp [List.foldlM, pure, Except.pure]
  | succ k ih =>
    intro hk acc
    have hk' : k ≤ accounts.length := Nat.le_of_succ_le hk
    have hklt : k < accounts.length := hk
    rw [List.range_succ, List.foldlM_append, ih hk' acc]
    have hidx : accounts[k]? = some (accounts.get ⟨k, hklt⟩) :=
      List.getElem?_eq_getElem hklt
    simp only [List.foldlM, bind, Except.bind, hidx]
    rw [List.take_succ, hidx, List.flatten_append]
    simp [List.append_assoc, pure, Except.pure]

/-! ## Claim C9: chunked-instruction reassembly -/

/-- **C9.**  When the decoded `IbcContractInstruction` names
`n ≤ accounts.length` auxiliary accounts, the reassembled payload is exactly
the concatenation of the data of accounts `0..n-1` in account order followed
by `last_instruction_part`; in particular splitting a payload across buffer
accounts and a last part and reassembling yields the original payload. -/
theorem parse_instruction_reassembles (accounts : List (List Nat)) (n : Nat)
    (last_instruction_part : List Nat) (h : n ≤ accounts.length) :
    parse_instruction_payload accounts n last_instruction_part
      = .ok ((accounts.take n).flatten ++ last_instruction_part) ∧
    (n = accounts.length →
      parse_instruction_payload accounts n last_instruction_part
        = .ok (accounts.flatten ++ last_instruction_part)) := by
  constructor
  · simp only [parse_instruction_payload, bind, Except.bind,
      parse_instruction_gather accounts n h]
    simp [pure, Except.pure]
  · intro hn
    simp only [parse_instruction_payload, bind, Except.bind,
      parse_instruction_gather accounts n h]
    simp [hn, List.take_length, pure, Except.pure]

/-- Concrete instance of C9: spec §8 scenario 5 shape — a payload split as
two chunks plus a one-byte last part reassembles byte for byte. -/
theorem parse_instruction_reassembles_witness :
    parse_instruction_payload [[1, 2, 3], [4, 5, 6]] 2 [7]
      = .ok [1, 2, 3, 4, 5, 6, 7] :=
  (parse_instruction_reassembles [[1, 2, 3], [4, 5, 6]] 2 [7]
    (by decide)).1

/-! ## `write_to_tx_buffer` (src/program/src/ibc_program.rs:161-185)

The Rust function takes the buffer account's data and evaluates
`&mut buffer_account.get_data_mut()?[data_offset..data_offset + data.len()]`
— a slice expression that panics when the range exceeds the account data's
length — and only then compares `buffer.len()` with `data.len()`. -/

inductive WriteOutcome
  | panic
  | err (e : InstructionError)
  | ok (new_data : List Nat)
  deriving DecidableEq

def STORAGE_ERR_CODE : Nat := 153

def write_to_tx_buffer (buffer_data : List Nat) (data_offset : Nat)
    (data : List Nat) : WriteOutcome :=
  if buffer_data.length < data_offset + data.length then .panic
  else
    let buffer := (buffer_data.drop data_offset).take data.length
    if buffer.length ≠ data.length then .err (.custom STORAGE_ERR_CODE)
    else
      .ok (buffer_data.take data_offset ++ data
        ++ buffer_data.drop (data_offset + data.length))

/-! ## Claim C10: the buffer slice is partial and the length check dead -/

/-- **C10.**  `write_to_tx_buffer` panics (rather than returning an error)
whenever `data_offset + data.len()` exceeds the buffer account's data
length; and whenever the length check is reached the slice's length equals
`data.len()`, so the `StorageError` branch guarded by that check is
unreachable. -/
theorem write_to_tx_buffer_slice_panics (buffer_data : List Nat)
    (data_offset : Nat) (data : List Nat) :
    (buffer_data.length < data_offset + data.length →
      write_to_tx_buffer buffer_data data_offset data = .panic) ∧
    (∀ e, write_to_tx_buffer buffer_data data_offset data ≠ .err e) := by
  constructor
  · intro hover
    simp [write_to_tx_buffer, hover]
  · intro e
    by_cases hover : buffer_data.length < data_offset + data.length
    · simp [write_to_tx_buffer, hover]
    · have hlen : ((buffer_data.drop data_offset).take data.length).length
          = data.length := by
        simp only [List.length_take, List.length_drop]
        omega
      simp [write_to_tx_buffer, hover, hlen]

/-- Concrete instance of C10: an out-of-range write panics; an in-range
write does not produce the storage error. -/
theorem write_to_tx_buffer_slice_panics_witness :
    write_to_tx_buffer [1, 2] 1 [5, 6] = .panic ∧
    write_to_tx_buffer [1, 2, 3] 1 [5, 6]
      ≠ .err (.custom STORAGE_ERR_CODE) :=
  ⟨(write_to_tx_buffer_slice_panics [1, 2] 1 [5, 6]).1 (by decide),
   (write_to_tx_buffer_slice_panics [1, 2, 3] 1 [5, 6]).2
     (.custom STORAGE_ERR_CODE)⟩
